import Mathlib

/-!
Shallow embedding of the URL-store and carousel-navigation core of the
link-to-code-mobile application.

The embedded functions mirror, line by line, the TypeScript sources:
  * `src/pages/QRCodeApp.tsx` — `addUrl`, `updateUrl`, `deleteUrl`, `setActiveUrl`;
  * `src/components/UrlManagement.tsx` — `normalizeUrl`, `handleSubmit`;
  * `src/components/QRCodeGenerator.tsx` — `navigateNext`, `navigatePrevious`,
    `handleTouchEnd`, `minSwipeDistance`.

JavaScript strings are modelled by Lean `String`; the JS methods `trim`,
`startsWith`, `findIndex` the code uses are re-implemented structurally on the
underlying character list (`jsTrim`, `jsStartsWith`, `findIdxO`) so that every
definition computes by kernel reduction.  The React state updates
(`setUrls (prev => ...)`) become pure functions `List SavedUrl → List SavedUrl`.
-/

namespace QRApp

/-- Whitespace as removed by `String.prototype.trim` (space, tab, LF, CR —
the characters that can realistically occur in a pasted URL or title). -/
def isJsWs (c : Char) : Bool := c = ' ' || c = '\t' || c = '\n' || c = '\r'

/-- Remove leading and trailing JS whitespace from a character list. -/
def trimChars (l : List Char) : List Char :=
  ((l.dropWhile isJsWs).reverse.dropWhile isJsWs).reverse

/-- Embedding of `url.trim()` from `UrlManagement.tsx`. -/
def jsTrim (s : String) : String := ⟨trimChars s.data⟩

/-- Does the first list start with the second one?  Structural embedding of
`String.prototype.startsWith`. -/
def startsWithChars : List Char → List Char → Bool
  | _, [] => true
  | [], _ :: _ => false
  | c :: cs, p :: ps => c = p && startsWithChars cs ps

/-- Embedding of `trimmed.startsWith(pat)` from `UrlManagement.tsx`. -/
def jsStartsWith (s pat : String) : Bool := startsWithChars s.data pat.data

/-- Embedding of `normalizeUrl` (`UrlManagement.tsx`, lines 30–36): trim, and
prepend `https://` unless the trimmed string already starts with `http://` or
`https://`. -/
def normalizeUrl (url : String) : String :=
  let trimmed := jsTrim url
  if jsStartsWith trimmed "http://" || jsStartsWith trimmed "https://" then
    trimmed
  else
    "https://" ++ trimmed

/-- Embedding of the `SavedUrl` interface (`types/url.ts`).  `createdAt` is an
abstract timestamp. -/
structure SavedUrl where
  id : String
  url : String
  title : String
  createdAt : Nat
  isActive : Bool
deriving DecidableEq, Repr

/-- Embedding of the `UrlFormData` interface (`types/url.ts`). -/
structure UrlFormData where
  url : String
  title : String
deriving DecidableEq, Repr

/-- Embedding of `addUrl` (`QRCodeApp.tsx`, lines 19–29).  The generated id and
the creation timestamp are passed as parameters (`generateId()` / `new Date()`
are nondeterministic at the JS level).  The new record is appended with
`isActive: urls.length === 0`. -/
def addUrl (id : String) (createdAt : Nat) (urlData : UrlFormData)
    (urls : List SavedUrl) : List SavedUrl :=
  urls ++ [{ id := id, url := urlData.url, title := urlData.title,
             createdAt := createdAt, isActive := decide (urls.length = 0) }]

/-- Embedding of `updateUrl` (`QRCodeApp.tsx`, lines 31–37): map over the
collection, replacing `url` and `title` of every record whose id matches. -/
def updateUrl (id : String) (urlData : UrlFormData)
    (urls : List SavedUrl) : List SavedUrl :=
  urls.map fun u =>
    if u.id = id then { u with url := urlData.url, title := urlData.title }
    else u

/-- Embedding of `deleteUrl` (`QRCodeApp.tsx`, lines 39–51): filter the record
out; if the removed record was active (`prev.find(url => url.id === id)?.isActive`)
and something remains, the first remaining record becomes active
(`remaining[0].isActive = true`). -/
def deleteUrl (id : String) (urls : List SavedUrl) : List SavedUrl :=
  let remaining := urls.filter fun u => decide (u.id ≠ id)
  let wasActive :=
    match urls.find? (fun u => decide (u.id = id)) with
    | some u => u.isActive
    | none => false
  if wasActive then
    match remaining with
    | [] => []
    | first :: rest => { first with isActive := true } :: rest
  else remaining

/-- Embedding of `setActiveUrl` (`QRCodeApp.tsx`, lines 53–58): every record's
`isActive` becomes `url.id === id`. -/
def setActiveUrl (id : String) (urls : List SavedUrl) : List SavedUrl :=
  urls.map fun u => { u with isActive := decide (u.id = id) }

/-- Outcome of a form submission: either the validation guard fired (the toast
error, no store operation runs) or the store committed a new collection. -/
inductive SubmitOutcome where
  | validationError
  | committed (urls : List SavedUrl)
deriving DecidableEq, Repr

/-- Embedding of `handleSubmit` (`UrlManagement.tsx`, lines 38–48 and onward):
if `!formData.url.trim() || !formData.title.trim()` the submission aborts with
the error toast (modelled as `validationError`) and no store operation runs;
otherwise the form data is normalized and either `updateUrl` (when editing) or
`addUrl` (when adding) commits. -/
def handleSubmit (editingId : Option String) (newId : String) (now : Nat)
    (formData : UrlFormData) (urls : List SavedUrl) : SubmitOutcome :=
  if jsTrim formData.url = "" ∨ jsTrim formData.title = "" then
    .validationError
  else
    let normalized : UrlFormData := { formData with url := normalizeUrl formData.url }
    match editingId with
    | some id => .committed (updateUrl id normalized urls)
    | none => .committed (addUrl newId now normalized urls)

/-- Embedding of `Array.prototype.findIndex`, with `none` for JS's `-1`. -/
def findIdxO {α : Type} (p : α → Bool) : List α → Option Nat
  | [] => none
  | a :: as => if p a then some 0 else (findIdxO p as).map (· + 1)

/-- Embedding of `currentIndex` (`QRCodeGenerator.tsx`): the active record is
`urls.find(url => url.isActive) || null` (computed in `QRCodeApp.tsx`), and
`currentIndex` is `urls.findIndex(url => url.id === activeUrl.id)` when an
active record exists, `-1` (here `none`) otherwise. -/
def currentIndexO (urls : List SavedUrl) : Option Nat :=
  match urls.find? (·.isActive) with
  | none => none
  | some a => findIdxO (fun u => decide (u.id = a.id)) urls

/-- Embedding of `navigateNext` (`QRCodeGenerator.tsx`, lines 52–56): a no-op
unless there are at least two records and a current index; otherwise activates
the record at `(currentIndex + 1) % urls.length`. -/
def navigateNext (urls : List SavedUrl) : List SavedUrl :=
  if urls.length < 2 then urls
  else
    match currentIndexO urls with
    | none => urls
    | some i =>
      match urls.get? ((i + 1) % urls.length) with
      | some u => setActiveUrl u.id urls
      | none => urls

/-- Embedding of `navigatePrevious` (`QRCodeGenerator.tsx`, lines 58–62): a
no-op unless there are at least two records and a current index; otherwise
activates the record at `length - 1` when the current index is `0`, else at
`currentIndex - 1`. -/
def navigatePrevious (urls : List SavedUrl) : List SavedUrl :=
  if urls.length < 2 then urls
  else
    match currentIndexO urls with
    | none => urls
    | some i =>
      let prevIndex := if i = 0 then urls.length - 1 else i - 1
      match urls.get? prevIndex with
      | some u => setActiveUrl u.id urls
      | none => urls

/-- Embedding of `minSwipeDistance` (`QRCodeGenerator.tsx`, line 27). -/
def minSwipeDistance : Int := 50

/-- JS falsiness of a number-or-null value: `!x` is `true` exactly when `x` is
`null` or the number `0`. -/
def falsyCoord : Option Int → Bool
  | none => true
  | some x => decide (x = 0)

/-- Which navigation, if any, a resolved touch gesture triggers. -/
inductive SwipeAction where
  | goNext
  | goPrev
  | noAction
deriving DecidableEq, Repr

/-- Embedding of `handleTouchEnd` (`QRCodeGenerator.tsx`, lines 38–50): the
guard `!touchStart || !touchEnd || !hasMultipleUrls` returns without
navigating; otherwise `distance = touchStart - touchEnd`, a left swipe
(`distance > minSwipeDistance`) fires `navigateNext` and a right swipe
(`distance < -minSwipeDistance`) fires `navigatePrevious`. -/
def handleTouchEnd (touchStart touchEnd : Option Int) (urlCount : Nat) :
    SwipeAction :=
  if falsyCoord touchStart || falsyCoord touchEnd || decide (urlCount < 2) then
    .noAction
  else
    match touchStart, touchEnd with
    | some s, some e =>
      let distance := s - e
      if distance > minSwipeDistance then .goNext
      else if distance < -minSwipeDistance then .goPrev
      else .noAction
    | _, _ => .noAction

/-- One user-visible store operation, as dispatched by the UI. -/
inductive Op where
  | add (id : String) (createdAt : Nat) (urlData : UrlFormData)
  | update (id : String) (urlData : UrlFormData)
  | del (id : String)
  | setActive (id : String)

/-- Apply one store operation to the collection. -/
def applyOp (s : List SavedUrl) : Op → List SavedUrl
  | .add id t d => addUrl id t d s
  | .update id d => updateUrl id d s
  | .del id => deleteUrl id s
  | .setActive id => setActiveUrl id s

/-- Apply a sequence of store operations, left to right. -/
def applyOps (s : List SavedUrl) (ops : List Op) : List SavedUrl :=
  ops.foldl applyOp s

/-- Does some record of the collection carry this id? -/
def hasId (s : List SavedUrl) (id : String) : Bool :=
  s.any fun u => decide (u.id = id)

/-- A sequence of operations is valid from a state when every `add` supplies a
fresh id (the contract of `generateId`) and every `setActive` targets a present
id (the only way the UI ever calls it). -/
def validOps : List SavedUrl → List Op → Bool
  | _, [] => true
  | s, o :: os =>
    (match o with
     | .add id _ _ => !hasId s id
     | .setActive id => hasId s id
     | _ => true) && validOps (applyOp s o) os

/-- Number of active records. -/
def countActive (urls : List SavedUrl) : Nat := urls.countP (·.isActive)

/-- Invariant I1: at most one record is active. -/
def I1 (urls : List SavedUrl) : Prop := countActive urls ≤ 1

/-- Invariant I2: a non-empty collection has exactly one active record. -/
def I2 (urls : List SavedUrl) : Prop := urls ≠ [] → countActive urls = 1

/-- Invariant I3: ids are unique within the collection. -/
def idsNodup (urls : List SavedUrl) : Prop := (urls.map (·.id)).Nodup

/-- The combined store invariant: unique ids, and exactly one active record
whenever the collection is non-empty. -/
def Inv (urls : List SavedUrl) : Prop := idsNodup urls ∧ I2 urls

/-! ### Shared helper lemmas -/

/-- On a collection where no record carries the id, `updateUrl` maps every
record to itself. -/
theorem updateUrl_absent (id : String) (urlData : UrlFormData)
    (urls : List SavedUrl) (h : ∀ u ∈ urls, u.id ≠ id) :
    updateUrl id urlData urls = urls := by
  induction urls with
  | nil => rfl
  | cons u us ih =>
    have h2 := ih fun v hv => h v (List.mem_cons_of_mem u hv)
    simp only [updateUrl, List.map_cons] at h2 ⊢
    rw [if_neg (h u (List.mem_cons_self u us)), h2]

/-- On a collection where no record carries the id, `deleteUrl` removes
nothing and reassigns nothing. -/
theorem deleteUrl_absent (id : String) (urls : List SavedUrl)
    (h : ∀ u ∈ urls, u.id ≠ id) : deleteUrl id urls = urls := by
  have hfind : urls.find? (fun u => decide (u.id = id)) = none := by
    rw [List.find?_eq_none]
    intro u hu
    simp [h u hu]
  have hfilter : urls.filter (fun u => decide (u.id ≠ id)) = urls := by
    rw [List.filter_eq_self]
    intro u hu
    simp [h u hu]
  simp only [deleteUrl, hfind, hfilter]
  rfl

/-- `find?` skips a block in which the predicate never holds. -/
theorem find?_append_none {α : Type} (p : α → Bool) (l₁ l₂ : List α)
    (h : l₁.find? p = none) : (l₁ ++ l₂).find? p = l₂.find? p := by
  induction l₁ with
  | nil => rfl
  | cons a as ih =>
    rw [List.find?_eq_none] at h
    have ha : ¬ p a = true := h a (List.mem_cons_self a as)
    rw [List.cons_append, List.find?_cons_of_neg _ ha]
    exact ih (List.find?_eq_none.mpr fun x hx => h x (List.mem_cons_of_mem a hx))

/-- A record of a collection with unique ids splits the collection into a
front and a back in which its id does not occur. -/
theorem mem_unique_id_split (urls : List SavedUrl) (hnd : idsNodup urls)
    (u : SavedUrl) (hu : u ∈ urls) :
    ∃ before after, urls = before ++ u :: after ∧
      (∀ v ∈ before, v.id ≠ u.id) ∧ (∀ v ∈ after, v.id ≠ u.id) := by
  obtain ⟨before, after, rfl⟩ := List.append_of_mem hu
  refine ⟨before, after, rfl, ?_, ?_⟩
  · intro v hv hvid
    have h1 : (before.map (·.id)).Disjoint ((u :: after).map (·.id)) := by
      have := (List.nodup_append.mp (by simpa [idsNodup, List.map_append] using hnd))
      exact this.2.2
    exact h1 (List.mem_map.mpr ⟨v, hv, rfl⟩)
      (by simp [hvid])
  · intro v hv hvid
    have h1 : ((u :: after).map (·.id)).Nodup := by
      have := (List.nodup_append.mp (by simpa [idsNodup, List.map_append] using hnd))
      exact this.2.1
    rw [List.map_cons, List.nodup_cons] at h1
    exact h1.1 (List.mem_map.mpr ⟨v, hv, hvid⟩)

/-! ### C3 — add appends; first record auto-activates -/

/-- C3: `addUrl` on the empty collection yields a single record with
`isActive = true`; on a non-empty collection it appends, at the end, a record
with `isActive = false`.  In both cases the record carries the submitted url
and title. -/
theorem addUrl_appends_first_auto_activates (id : String) (t : Nat)
    (d : UrlFormData) :
    (∃ r : SavedUrl, addUrl id t d [] = [r] ∧ r.isActive = true ∧
      r.url = d.url ∧ r.title = d.title) ∧
    ∀ urls : List SavedUrl, urls ≠ [] →
      ∃ r : SavedUrl, addUrl id t d urls = urls ++ [r] ∧ r.isActive = false ∧
        r.url = d.url ∧ r.title = d.title := by
  constructor
  · exact ⟨_, rfl, rfl, rfl, rfl⟩
  · intro urls h
    refine ⟨_, rfl, ?_, rfl, rfl⟩
    simpa [List.length_eq_zero] using h

/-- Concrete check of `addUrl_appends_first_auto_activates` on a one-record
collection. -/
theorem addUrl_appends_first_auto_activates_check :
    ∃ r : SavedUrl,
      addUrl "b" 1 ⟨"u2", "t2"⟩ [⟨"a", "u", "t", 0, true⟩] =
        [⟨"a", "u", "t", 0, true⟩] ++ [r] ∧ r.isActive = false ∧
      r.url = "u2" ∧ r.title = "t2" :=
  (addUrl_appends_first_auto_activates "b" 1 ⟨"u2", "t2"⟩).2
    [⟨"a", "u", "t", 0, true⟩] (by decide)

/-! ### C5 — empty url or title fails validation, collection unchanged -/

/-- C5: when the submitted url or title is empty after trimming, the submit
handler aborts with the validation error before invoking `addUrl` or
`updateUrl`, so the collection is unchanged — for adds and edits alike. -/
theorem handleSubmit_validationError (editingId : Option String)
    (newId : String) (now : Nat) (formData : UrlFormData)
    (urls : List SavedUrl)
    (h : jsTrim formData.url = "" ∨ jsTrim formData.title = "") :
    handleSubmit editingId newId now formData urls = .validationError := by
  unfold handleSubmit
  rw [if_pos h]

/-- Concrete check of `handleSubmit_validationError` on the spec scenario
`add(\x7burl:"", title:"X"\x7d)`. -/
theorem handleSubmit_validationError_check :
    handleSubmit none "a" 0 ⟨"", "X"⟩ [] = .validationError :=
  handleSubmit_validationError none "a" 0 ⟨"", "X"⟩ [] (Or.inl (by decide))

/-! ### C10 — update/delete with an absent id are silent no-ops -/

/-- C10: when no record carries the requested id, `updateUrl` and `deleteUrl`
return the collection unchanged; both are total functions, so no error is
signalled. -/
theorem updateUrl_deleteUrl_absent_noop (id : String) (urlData : UrlFormData)
    (urls : List SavedUrl) (h : ∀ u ∈ urls, u.id ≠ id) :
    updateUrl id urlData urls = urls ∧ deleteUrl id urls = urls :=
  ⟨updateUrl_absent id urlData urls h, deleteUrl_absent id urls h⟩

/-- Concrete check of `updateUrl_deleteUrl_absent_noop` with id `"b"` absent
from a one-record collection. -/
theorem updateUrl_deleteUrl_absent_noop_check :
    updateUrl "b" ⟨"u2", "t2"⟩ [⟨"a", "u", "t", 0, true⟩] =
      [⟨"a", "u", "t", 0, true⟩] ∧
    deleteUrl "b" [⟨"a", "u", "t", 0, true⟩] = [⟨"a", "u", "t", 0, true⟩] :=
  updateUrl_deleteUrl_absent_noop "b" ⟨"u2", "t2"⟩ [⟨"a", "u", "t", 0, true⟩]
    (by decide)

/-! ### C8 — the touch-end guard treats coordinate 0 as a missing touch -/

/-- C8: a swipe recorded from x = 100 to x = 0 over two records has
displacement 100, strictly above the 50px threshold, yet fires no navigation:
the guard `!touchEnd` treats the recorded coordinate 0 as a missing touch.
The same displacement ending at x = 30 does navigate. -/
theorem handleTouchEnd_zero_coordinate_bug :
    (100 : Int) - 0 > minSwipeDistance ∧
    handleTouchEnd (some 100) (some 0) 2 = .noAction ∧
    handleTouchEnd (some 130) (some 30) 2 = .goNext :=
  ⟨by decide, by decide, by decide⟩

/-! ### C2 — setActive with an absent id -/

/-- C2 as stated is false: with the one-record collection `[a (active)]`,
`setActiveUrl "b"` does not fail and does not leave the collection unchanged —
it deactivates the record. -/
theorem setActiveUrl_absent_changes_collection :
    setActiveUrl "b" [⟨"a", "u", "t", 0, true⟩] = [⟨"a", "u", "t", 0, false⟩] ∧
    setActiveUrl "b" [⟨"a", "u", "t", 0, true⟩] ≠ [⟨"a", "u", "t", 0, true⟩] :=
  ⟨by decide, by decide⟩

/-- C2 amended: `setActiveUrl id` never fails; it preserves the length and,
at every position, the record's id, url, title and createdAt, and sets
`isActive` to true exactly when the record's id matches — so a present id
activates that record and deactivates every other, while an absent id
silently deactivates every record. -/
theorem setActiveUrl_pointwise_spec (id : String) (urls : List SavedUrl) :
    (setActiveUrl id urls).length = urls.length ∧
    ∀ (i : Nat) (u v : SavedUrl), urls.get? i = some u →
      (setActiveUrl id urls).get? i = some v →
      v.id = u.id ∧ v.url = u.url ∧ v.title = u.title ∧
      v.createdAt = u.createdAt ∧ (v.isActive = true ↔ u.id = id) := by
  constructor
  · simp [setActiveUrl]
  · intro i u v hu hv
    rw [setActiveUrl, List.get?_map, hu] at hv
    simp only [Option.map_some'] at hv
    injection hv with hv
    subst hv
    simp

/-- Concrete check of `setActiveUrl_pointwise_spec`: activating `"b"` in a
two-record collection turns exactly the second record active. -/
theorem setActiveUrl_pointwise_spec_check :
    (setActiveUrl "b" [⟨"a", "u", "t", 0, true⟩, ⟨"b", "u2", "t2", 1, false⟩]).length = 2 ∧
    ((⟨"b", "u2", "t2", 1, true⟩ : SavedUrl).isActive = true ↔ ("b" : String) = "b") := by
  have h := setActiveUrl_pointwise_spec "b"
    [⟨"a", "u", "t", 0, true⟩, ⟨"b", "u2", "t2", 1, false⟩]
  exact ⟨h.1, (h.2 1 ⟨"b", "u2", "t2", 1, false⟩ ⟨"b", "u2", "t2", 1, true⟩
    (by decide) (by decide)).2.2.2.2⟩

/-! ### C6 — normalization idempotence -/

/-- Dropping a prefix of matching elements twice is the same as doing it
once. -/
theorem dropWhile_dropWhile {α : Type} (p : α → Bool) (l : List α) :
    (l.dropWhile p).dropWhile p = l.dropWhile p := by
  induction l with
  | nil => rfl
  | cons a as ih =>
    by_cases h : p a = true
    · simp [List.dropWhile_cons, h, ih]
    · simp [List.dropWhile_cons, h]

/-- The head of a `dropWhile` result does not satisfy the predicate. -/
theorem dropWhile_head_false {α : Type} (p : α → Bool) (l : List α) (c : α)
    (cs : List α) (h : l.dropWhile p = c :: cs) : p c = false := by
  induction l with
  | nil => simp [List.dropWhile] at h
  | cons a as ih =>
    rw [List.dropWhile_cons] at h
    by_cases hp : p a = true
    · rw [if_pos hp] at h
      exact ih h
    · rw [if_neg hp] at h
      injection h with h1 h2
      subst h1
      exact Bool.eq_false_iff.mpr hp

/-- A trimmed character list has no leading whitespace. -/
theorem dropWhile_trimChars (l : List Char) :
    (trimChars l).dropWhile isJsWs = trimChars l := by
  cases hX : trimChars l with
  | nil => rfl
  | cons c cs =>
    obtain ⟨t, ht⟩ :=
      List.dropWhile_suffix (l := (l.dropWhile isJsWs).reverse) isJsWs
    have hL : l.dropWhile isJsWs = c :: (cs ++ t.reverse) := by
      have h1 : l.dropWhile isJsWs = (trimChars l) ++ t.reverse := by
        calc l.dropWhile isJsWs
            = (l.dropWhile isJsWs).reverse.reverse := (List.reverse_reverse _).symm
          _ = (t ++ (l.dropWhile isJsWs).reverse.dropWhile isJsWs).reverse := by
              rw [ht]
          _ = (trimChars l) ++ t.reverse := by
              rw [List.reverse_append]; rfl
      rw [h1, hX, List.cons_append]
    have hc : isJsWs c = false := dropWhile_head_false isJsWs l c _ hL
    rw [List.dropWhile_cons, if_neg (by simp [hc])]

/-- A trimmed character list has no trailing whitespace. -/
theorem dropWhile_reverse_trimChars (l : List Char) :
    (trimChars l).reverse.dropWhile isJsWs = (trimChars l).reverse := by
  have h : (trimChars l).reverse =
      ((l.dropWhile isJsWs).reverse).dropWhile isJsWs := by
    show (((l.dropWhile isJsWs).reverse.dropWhile isJsWs).reverse).reverse = _
    rw [List.reverse_reverse]
  rw [h]
  exact dropWhile_dropWhile isJsWs _

/-- Trimming is idempotent on character lists. -/
theorem trimChars_idem (l : List Char) : trimChars (trimChars l) = trimChars l := by
  show (((trimChars l).dropWhile isJsWs).reverse.dropWhile isJsWs).reverse = trimChars l
  rw [dropWhile_trimChars, dropWhile_reverse_trimChars, List.reverse_reverse]

/-- Trimming is idempotent on strings. -/
theorem jsTrim_idem (s : String) : jsTrim (jsTrim s) = jsTrim s := by
  show (⟨trimChars (trimChars s.data)⟩ : String) = ⟨trimChars s.data⟩
  rw [trimChars_idem]

/-- Any list starts with itself, whatever follows. -/
theorem startsWithChars_append_self (p rest : List Char) :
    startsWithChars (p ++ rest) p = true := by
  induction p with
  | nil => simp [startsWithChars]
  | cons c cs ih => simp [startsWithChars, ih]

/-- Prepending the scheme to an already-trimmed character list yields a
trimmed list again. -/
theorem trimChars_scheme_append (l : List Char) :
    trimChars ("https://".data ++ trimChars l) = "https://".data ++ trimChars l := by
  have h1 : List.dropWhile isJsWs ("https://".data ++ trimChars l) =
      "https://".data ++ trimChars l := by
    rw [List.dropWhile_append]
    rfl
  have h2 : List.dropWhile isJsWs ((trimChars l).reverse ++ ("https://".data).reverse) =
      (trimChars l).reverse ++ ("https://".data).reverse := by
    rw [List.dropWhile_append, dropWhile_reverse_trimChars]
    by_cases hT : (trimChars l).reverse = []
    · rw [hT]
      rfl
    · rw [if_neg (by simpa [List.isEmpty_iff] using hT)]
  show ((("https://".data ++ trimChars l).dropWhile isJsWs).reverse.dropWhile isJsWs).reverse = _
  rw [h1, List.reverse_append, h2, List.reverse_append, List.reverse_reverse,
    List.reverse_reverse]

/-- Prepending the scheme to a trimmed string yields a string that is its own
trim and carries the scheme. -/
theorem https_append_jsTrim (s : String) :
    jsTrim ("https://" ++ jsTrim s) = "https://" ++ jsTrim s ∧
    jsStartsWith ("https://" ++ jsTrim s) "https://" = true := by
  have hdata : ("https://" ++ jsTrim s).data = "https://".data ++ trimChars s.data := by
    rw [String.data_append]
    rfl
  constructor
  · show (⟨trimChars ("https://" ++ jsTrim s).data⟩ : String) = "https://" ++ jsTrim s
    rw [hdata, trimChars_scheme_append, ← hdata]
  · show startsWithChars ("https://" ++ jsTrim s).data ("https://".data) = true
    rw [hdata]
    exact startsWithChars_append_self _ _

/-- C6 fails as stated: `"https://example.com "` (trailing blank) begins with
the scheme `https://`, yet normalizing it is not a no-op — the code trims
before checking the scheme. -/
theorem normalizeUrl_not_noop_on_scheme :
    jsStartsWith "https://example.com " "https://" = true ∧
    normalizeUrl "https://example.com " ≠ "https://example.com " :=
  ⟨by decide, by decide⟩

/-- C6 amended: normalizing a scheme-bearing string that carries no
surrounding whitespace (it equals its own trim) is a no-op; normalizing
`"example.com"` yields `"https://example.com"`; and normalization is
idempotent on every string. -/
theorem normalizeUrl_idempotent :
    (∀ s : String, jsTrim s = s →
      (jsStartsWith s "http://" || jsStartsWith s "https://") = true →
      normalizeUrl s = s) ∧
    normalizeUrl "example.com" = "https://example.com" ∧
    ∀ s : String, normalizeUrl (normalizeUrl s) = normalizeUrl s := by
  refine ⟨?_, by decide, ?_⟩
  · intro s h hs
    unfold normalizeUrl
    simp only [h]
    rw [if_pos hs]
  · intro s
    by_cases hc : (jsStartsWith (jsTrim s) "http://" ||
        jsStartsWith (jsTrim s) "https://") = true
    · have h1 : normalizeUrl s = jsTrim s := by
        unfold normalizeUrl
        rw [if_pos hc]
      rw [h1]
      unfold normalizeUrl
      simp only [jsTrim_idem]
      rw [if_pos hc]
    · have h1 : normalizeUrl s = "https://" ++ jsTrim s := by
        unfold normalizeUrl
        rw [if_neg hc]
      obtain ⟨htrim, hstart⟩ := https_append_jsTrim s
      rw [h1]
      unfold normalizeUrl
      simp only [htrim, hstart, Bool.or_true]
      simp

/-- Concrete check of `normalizeUrl_idempotent`: `"https://example.com"` has
no surrounding whitespace and already carries the scheme, so normalization
leaves it unchanged. -/
theorem normalizeUrl_idempotent_check :
    normalizeUrl "https://example.com" = "https://example.com" :=
  normalizeUrl_idempotent.1 "https://example.com" (by decide) (by decide)

/-! ### C9 — update changes only the matching record's url and title -/

/-- C9: on a collection with unique ids, `updateUrl id` replaces, at the
position holding the record with that id, only the `url` and `title` fields —
`id`, `createdAt`, `isActive` and the position survive — and leaves every
other position untouched. -/
theorem updateUrl_frame (id : String) (d : UrlFormData) (urls : List SavedUrl)
    (hnd : idsNodup urls) (i : Nat) (u : SavedUrl)
    (hi : urls.get? i = some u) (hid : u.id = id) :
    (updateUrl id d urls).length = urls.length ∧
    (updateUrl id d urls).get? i =
      some { u with url := d.url, title := d.title } ∧
    ∀ j : Nat, j ≠ i → (updateUrl id d urls).get? j = urls.get? j := by
  refine ⟨by simp [updateUrl], ?_, ?_⟩
  · rw [updateUrl, List.get?_map, hi, Option.map_some']
    rw [if_pos hid]
  · intro j hj
    rw [updateUrl, List.get?_map]
    cases hj2 : urls.get? j with
    | none => rfl
    | some v =>
      rw [Option.map_some']
      have hvne : ¬ v.id = id := by
        intro hveq
        obtain ⟨hilt, hiv⟩ := List.get?_eq_some.mp hi
        obtain ⟨hjlt, hjv⟩ := List.get?_eq_some.mp hj2
        rw [List.get_eq_getElem] at hiv hjv
        have hmap : (urls.map (·.id)).get ⟨i, by simpa using hilt⟩ =
            (urls.map (·.id)).get ⟨j, by simpa using hjlt⟩ := by
          rw [List.get_eq_getElem, List.get_eq_getElem, List.getElem_map,
            List.getElem_map, hiv, hjv, hid, hveq]
        have hij := (hnd.get_inj_iff).mp hmap
        exact hj (congrArg Fin.val hij).symm
      rw [if_neg hvne]

/-- Concrete check of `updateUrl_frame`: editing record `"a"` in a two-record
collection rewrites its url and title in place and leaves record `"b"`
alone. -/
theorem updateUrl_frame_check :
    (updateUrl "a" ⟨"u3", "t3"⟩
      [⟨"a", "u", "t", 0, true⟩, ⟨"b", "u2", "t2", 1, false⟩]).length = 2 ∧
    (updateUrl "a" ⟨"u3", "t3"⟩
      [⟨"a", "u", "t", 0, true⟩, ⟨"b", "u2", "t2", 1, false⟩]).get? 0 =
      some ⟨"a", "u3", "t3", 0, true⟩ ∧
    (updateUrl "a" ⟨"u3", "t3"⟩
      [⟨"a", "u", "t", 0, true⟩, ⟨"b", "u2", "t2", 1, false⟩]).get? 1 =
      [⟨"a", "u", "t", 0, true⟩, ⟨"b", "u2", "t2", 1, false⟩].get? 1 := by
  have h := updateUrl_frame "a" ⟨"u3", "t3"⟩
    [⟨"a", "u", "t", 0, true⟩, ⟨"b", "u2", "t2", 1, false⟩]
    (by unfold idsNodup; decide) 0 ⟨"a", "u", "t", 0, true⟩ (by decide) rfl
  exact ⟨h.1, h.2.1, h.2.2 1 (by decide)⟩

/-! ### C4 — deleting the active record reassigns activation to the first -/

/-- C4: on a collection with unique ids whose record with the given id is
active, deletion from a collection of two or more records leaves the first
remaining record active, and deletion from a one-record collection leaves the
empty collection (no record active). -/
theorem deleteUrl_active_reassigns_first (id : String) (urls : List SavedUrl)
    (hnd : idsNodup urls) (u : SavedUrl) (hu : u ∈ urls) (hid : u.id = id)
    (hact : u.isActive = true) :
    (2 ≤ urls.length →
      ∃ f rest, urls.filter (fun v => decide (v.id ≠ id)) = f :: rest ∧
        deleteUrl id urls = { f with isActive := true } :: rest) ∧
    (urls.length = 1 → deleteUrl id urls = []) := by
  obtain ⟨before, after, heq, hb, ha⟩ := mem_unique_id_split urls hnd u hu
  subst heq
  have hfilter : (before ++ u :: after).filter (fun v => decide (v.id ≠ id)) =
      before ++ after := by
    rw [List.filter_append, List.filter_cons_of_neg (by simp [hid]),
      List.filter_eq_self.mpr (fun v hv => by simpa [hid] using hb v hv),
      List.filter_eq_self.mpr (fun v hv => by simpa [hid] using ha v hv)]
  have hfind : (before ++ u :: after).find? (fun v => decide (v.id = id)) =
      some u := by
    rw [find?_append_none _ _ _ (List.find?_eq_none.mpr fun x hx => by
      simpa [hid] using hb x hx)]
    exact List.find?_cons_of_pos _ (by simp [hid])
  have hdel : deleteUrl id (before ++ u :: after) =
      match before ++ after with
      | [] => []
      | f :: rest => { f with isActive := true } :: rest := by
    simp only [deleteUrl, hfind, hfilter, hact, if_true]
  constructor
  · intro hlen
    simp only [List.length_append, List.length_cons] at hlen
    cases hba : before ++ after with
    | nil =>
      exfalso
      have := congrArg List.length hba
      simp only [List.length_append, List.length_nil] at this
      omega
    | cons f rest =>
      refine ⟨f, rest, by rw [hfilter, hba], ?_⟩
      rw [hdel, hba]
  · intro hlen
    simp only [List.length_append, List.length_cons] at hlen
    have hb0 : before = [] := List.length_eq_zero.mp (by omega)
    have ha0 : after = [] := List.length_eq_zero.mp (by omega)
    subst hb0
    subst ha0
    rw [hdel]
    rfl

/-- Concrete check of `deleteUrl_active_reassigns_first`: deleting active
`"a"` from `[a (active), b]` makes `b` active, and deleting it from `[a]`
empties the collection. -/
theorem deleteUrl_active_reassigns_first_check :
    (∃ f rest,
      ([⟨"a", "u", "t", 0, true⟩, ⟨"b", "u2", "t2", 1, false⟩] :
          List SavedUrl).filter (fun v => decide (v.id ≠ "a")) = f :: rest ∧
      deleteUrl "a" [⟨"a", "u", "t", 0, true⟩, ⟨"b", "u2", "t2", 1, false⟩] =
        { f with isActive := true } :: rest) ∧
    deleteUrl "a" [⟨"a", "u", "t", 0, true⟩] = [] :=
  ⟨(deleteUrl_active_reassigns_first "a"
      [⟨"a", "u", "t", 0, true⟩, ⟨"b", "u2", "t2", 1, false⟩]
      (by unfold idsNodup; decide) ⟨"a", "u", "t", 0, true⟩ (by decide) rfl
      rfl).1 (by decide),
   (deleteUrl_active_reassigns_first "a" [⟨"a", "u", "t", 0, true⟩]
      (by unfold idsNodup; decide) ⟨"a", "u", "t", 0, true⟩ (by decide) rfl
      rfl).2 (by decide)⟩

/-! ### C7 — navigation wraparound -/

/-- `findIdxO` locates the final element when the predicate fails on the
whole front. -/
theorem findIdxO_append_last {α : Type} (p : α → Bool) (l : List α) (a : α)
    (hl : ∀ b ∈ l, p b = false) (ha : p a = true) :
    findIdxO p (l ++ [a]) = some l.length := by
  induction l with
  | nil => simp [findIdxO, ha]
  | cons b bs ih =>
    have hb : p b = false := hl b (List.mem_cons_self b bs)
    rw [List.cons_append]
    simp only [findIdxO, hb, Bool.false_eq_true, if_false,
      ih (fun x hx => hl x (List.mem_cons_of_mem b hx)), Option.map_some',
      List.length_cons]

/-- Unfolding rule for `navigateNext` when the guards pass. -/
theorem navigateNext_eq (urls : List SavedUrl) (i : Nat) (u : SavedUrl)
    (h2 : ¬ urls.length < 2) (hc : currentIndexO urls = some i)
    (hg : urls.get? ((i + 1) % urls.length) = some u) :
    navigateNext urls = setActiveUrl u.id urls := by
  simp only [navigateNext, h2, hc, hg, if_false]

/-- Unfolding rule for `navigatePrevious` when the guards pass. -/
theorem navigatePrevious_eq (urls : List SavedUrl) (i : Nat) (u : SavedUrl)
    (h2 : ¬ urls.length < 2) (hc : currentIndexO urls = some i)
    (hg : urls.get? (if i = 0 then urls.length - 1 else i - 1) = some u) :
    navigatePrevious urls = setActiveUrl u.id urls := by
  simp only [navigatePrevious, h2, hc, hg, if_false]

/-- C7: with unique ids, `navigateNext` on a collection whose active record
sits at the last index hands activation to the record at index 0;
`navigatePrevious` on a collection whose active record sits at index 0 hands
activation to the record at index `length - 1`; and with fewer than two
records both navigations leave the collection untouched. -/
theorem navigation_wraparound :
    (∀ (x : SavedUrl) (front : List SavedUrl) (u : SavedUrl),
      idsNodup (x :: front ++ [u]) →
      (∀ v ∈ x :: front, v.isActive = false) → u.isActive = true →
      ∃ rest, navigateNext (x :: front ++ [u]) =
        { x with isActive := true } :: rest) ∧
    (∀ (u : SavedUrl) (rest : List SavedUrl), rest ≠ [] → u.isActive = true →
      ∃ z, (u :: rest).get? rest.length = some z ∧
        (navigatePrevious (u :: rest)).get? rest.length =
          some { z with isActive := true }) ∧
    (∀ urls : List SavedUrl, urls.length < 2 →
      navigateNext urls = urls ∧ navigatePrevious urls = urls) := by
  refine ⟨?_, ?_, ?_⟩
  · intro x front u hnd hfront hu
    have hlen : (x :: front ++ [u]).length = front.length + 2 := by simp
    have h2 : ¬ (x :: front ++ [u]).length < 2 := by omega
    have hfind : (x :: front ++ [u]).find? (·.isActive) = some u := by
      have h1 : (x :: front).find? (·.isActive) = none :=
        List.find?_eq_none.mpr fun v hv => by simp [hfront v hv]
      show ((x :: front) ++ [u]).find? (·.isActive) = some u
      rw [find?_append_none _ _ _ h1]
      exact List.find?_cons_of_pos _ (by simp [hu])
    have hids : ∀ v ∈ x :: front, (fun v => decide (v.id = u.id)) v = false := by
      intro v hv
      have h := List.nodup_append.mp (show ((x :: front).map (·.id) ++
          [u].map (·.id)).Nodup by
        simpa [idsNodup, List.map_append] using hnd)
      simp only [decide_eq_false_iff_not]
      intro hvu
      exact h.2.2 (List.mem_map.mpr ⟨v, hv, rfl⟩) (by simp [hvu])
    have hfidx : findIdxO (fun v => decide (v.id = u.id)) (x :: front ++ [u]) =
        some (front.length + 1) := by
      show findIdxO (fun v => decide (v.id = u.id)) ((x :: front) ++ [u]) =
        some (front.length + 1)
      rw [findIdxO_append_last _ _ _ hids (by simp)]
      simp
    have hcur : currentIndexO (x :: front ++ [u]) = some (front.length + 1) := by
      unfold currentIndexO
      rw [hfind]
      exact hfidx
    have hmod : (front.length + 1 + 1) % (x :: front ++ [u]).length = 0 := by
      rw [hlen]
      exact Nat.mod_self _
    have hget : (x :: front ++ [u]).get? ((front.length + 1 + 1) %
        (x :: front ++ [u]).length) = some x := by
      rw [hmod]
      rfl
    have hnav := navigateNext_eq (x :: front ++ [u]) (front.length + 1) x h2
      hcur hget
    refine ⟨(front ++ [u]).map
      (fun v => { v with isActive := decide (v.id = x.id) }), ?_⟩
    rw [hnav]
    simp only [setActiveUrl, List.map_cons]
    simp
  · intro u rest hne hu
    have h2 : ¬ (u :: rest).length < 2 := by
      cases rest with
      | nil => exact absurd rfl hne
      | cons b bs => simp only [List.length_cons]; omega
    have hfind : (u :: rest).find? (·.isActive) = some u :=
      List.find?_cons_of_pos _ (by simp [hu])
    have hcur : currentIndexO (u :: rest) = some 0 := by
      unfold currentIndexO
      rw [hfind]
      show findIdxO (fun v => decide (v.id = u.id)) (u :: rest) = some 0
      simp [findIdxO]
    have hlt : rest.length < (u :: rest).length := by simp
    have hz := List.get?_eq_get hlt
    have hprev := navigatePrevious_eq (u :: rest) 0
      ((u :: rest).get ⟨rest.length, hlt⟩) h2 hcur (by simp)
    refine ⟨(u :: rest).get ⟨rest.length, hlt⟩, hz, ?_⟩
    rw [hprev]
    simp only [setActiveUrl]
    rw [List.get?_map, hz, Option.map_some']
    simp
  · intro urls h
    constructor
    · unfold navigateNext
      rw [if_pos h]
    · unfold navigatePrevious
      rw [if_pos h]

/-- Concrete check of `navigation_wraparound` on two-record and one-record
collections. -/
theorem navigation_wraparound_check :
    (∃ rest, navigateNext [⟨"a", "u", "t", 0, false⟩, ⟨"b", "u2", "t2", 1, true⟩] =
      { (⟨"a", "u", "t", 0, false⟩ : SavedUrl) with isActive := true } :: rest) ∧
    (∃ z, ([⟨"a", "u", "t", 0, true⟩, ⟨"b", "u2", "t2", 1, false⟩] :
        List SavedUrl).get? 1 = some z ∧
      (navigatePrevious [⟨"a", "u", "t", 0, true⟩, ⟨"b", "u2", "t2", 1, false⟩]).get? 1 =
        some { z with isActive := true }) ∧
    navigateNext [⟨"a", "u", "t", 0, true⟩] = [⟨"a", "u", "t", 0, true⟩] := by
  refine ⟨?_, ?_, ?_⟩
  · exact navigation_wraparound.1 ⟨"a", "u", "t", 0, false⟩ []
      ⟨"b", "u2", "t2", 1, true⟩ (by unfold idsNodup; decide) (by decide) rfl
  · exact navigation_wraparound.2.1 ⟨"a", "u", "t", 0, true⟩
      [⟨"b", "u2", "t2", 1, false⟩] (by decide) rfl
  · exact (navigation_wraparound.2.2 [⟨"a", "u", "t", 0, true⟩] (by decide)).1

/-! ### C1 — invariant preservation across operation sequences -/

/-- Filtering the unique id out of a split collection removes exactly the
middle record. -/
theorem split_filter_ne (id : String) (u : SavedUrl)
    (before after : List SavedUrl) (hid : u.id = id)
    (hb : ∀ v ∈ before, v.id ≠ u.id) (ha : ∀ v ∈ after, v.id ≠ u.id) :
    (before ++ u :: after).filter (fun v => decide (v.id ≠ id)) =
      before ++ after := by
  rw [List.filter_append, List.filter_cons_of_neg (by simp [hid]),
    List.filter_eq_self.mpr (fun v hv => by simpa [hid] using hb v hv),
    List.filter_eq_self.mpr (fun v hv => by simpa [hid] using ha v hv)]

/-- Searching the unique id in a split collection finds the middle record. -/
theorem split_find_id (id : String) (u : SavedUrl)
    (before after : List SavedUrl) (hid : u.id = id)
    (hb : ∀ v ∈ before, v.id ≠ u.id) :
    (before ++ u :: after).find? (fun v => decide (v.id = id)) = some u := by
  rw [find?_append_none _ _ _ (List.find?_eq_none.mpr fun x hx => by
    simpa [hid] using hb x hx)]
  exact List.find?_cons_of_pos _ (by simp [hid])

/-- `addUrl` with a fresh id preserves the store invariant. -/
theorem inv_addUrl (id : String) (t : Nat) (d : UrlFormData)
    (s : List SavedUrl) (hinv : Inv s) (hfresh : hasId s id = false) :
    Inv (addUrl id t d s) := by
  obtain ⟨hnd, hI2⟩ := hinv
  have hnotin : ∀ u ∈ s, ¬ u.id = id := by
    intro u hu
    have := List.any_eq_false.mp hfresh u hu
    simpa using this
  constructor
  · simp only [idsNodup, addUrl]
    rw [List.map_append, List.nodup_append]
    refine ⟨hnd, by simp, ?_⟩
    intro a ha hb
    simp only [List.map_cons, List.map_nil, List.mem_singleton] at hb
    obtain ⟨v, hv, hva⟩ := List.mem_map.mp ha
    exact hnotin v hv (hva.trans hb)
  · intro _
    simp only [countActive, addUrl]
    rw [List.countP_append]
    by_cases hs : s = []
    · subst hs
      rfl
    · have h1 : s.countP (·.isActive) = 1 := hI2 hs
      have h0 : s.length ≠ 0 := fun h => hs (List.length_eq_zero.mp h)
      rw [h1, List.countP_cons, List.countP_nil]
      simp [h0]

/-- `updateUrl` never touches ids. -/
theorem ids_updateUrl (id : String) (d : UrlFormData) (s : List SavedUrl) :
    (updateUrl id d s).map (·.id) = s.map (·.id) := by
  unfold updateUrl
  rw [List.map_map]
  exact List.map_congr_left fun u _ => by
    by_cases h : u.id = id <;> simp [Function.comp, h]

/-- `updateUrl` never touches active flags. -/
theorem countActive_updateUrl (id : String) (d : UrlFormData)
    (s : List SavedUrl) : countActive (updateUrl id d s) = countActive s := by
  unfold countActive updateUrl
  rw [List.countP_map]
  exact List.countP_congr fun u _ => by
    by_cases h : u.id = id <;> simp [Function.comp, h]

/-- `updateUrl` preserves the store invariant. -/
theorem inv_updateUrl (id : String) (d : UrlFormData) (s : List SavedUrl)
    (hinv : Inv s) : Inv (updateUrl id d s) := by
  obtain ⟨hnd, hI2⟩ := hinv
  constructor
  · show ((updateUrl id d s).map (·.id)).Nodup
    rw [ids_updateUrl]
    exact hnd
  · intro hne
    rw [countActive_updateUrl]
    apply hI2
    intro h0
    subst h0
    exact hne rfl

/-- `setActiveUrl` never touches ids. -/
theorem ids_setActiveUrl (id : String) (s : List SavedUrl) :
    (setActiveUrl id s).map (·.id) = s.map (·.id) := by
  unfold setActiveUrl
  rw [List.map_map]
  exact List.map_congr_left fun u _ => rfl

/-- `setActiveUrl` with a present id preserves the store invariant. -/
theorem inv_setActiveUrl (id : String) (s : List SavedUrl) (hinv : Inv s)
    (hhas : hasId s id = true) : Inv (setActiveUrl id s) := by
  obtain ⟨hnd, _⟩ := hinv
  obtain ⟨u, hu, huid⟩ : ∃ u ∈ s, u.id = id := by
    obtain ⟨u, hu, hp⟩ := List.any_eq_true.mp hhas
    exact ⟨u, hu, by simpa using hp⟩
  constructor
  · show ((setActiveUrl id s).map (·.id)).Nodup
    rw [ids_setActiveUrl]
    exact hnd
  · intro _
    obtain ⟨before, after, heq, hb, ha⟩ := mem_unique_id_split s hnd u hu
    subst heq
    show (setActiveUrl id (before ++ u :: after)).countP (·.isActive) = 1
    unfold setActiveUrl
    rw [List.countP_map,
      List.countP_congr (q := fun v => decide (v.id = id))
        (fun v _ => by simp [Function.comp]),
      List.countP_append, List.countP_cons,
      List.countP_eq_zero.mpr (fun v hv => by simpa [huid] using hb v hv),
      List.countP_eq_zero.mpr (fun v hv => by simpa [huid] using ha v hv)]
    simp [huid]

/-- `deleteUrl` preserves the store invariant. -/
theorem inv_deleteUrl (id : String) (s : List SavedUrl) (hinv : Inv s) :
    Inv (deleteUrl id s) := by
  obtain ⟨hnd, hI2⟩ := hinv
  cases hfind : s.find? (fun v => decide (v.id = id)) with
  | none =>
    have habs : ∀ u ∈ s, u.id ≠ id := by
      intro u hu
      have := List.find?_eq_none.mp hfind u hu
      simpa using this
    rw [deleteUrl_absent id s habs]
    exact ⟨hnd, hI2⟩
  | some u =>
    have hu : u ∈ s := List.mem_of_find?_eq_some hfind
    have huid : u.id = id := by simpa using List.find?_some hfind
    obtain ⟨before, after, heq, hb, ha⟩ := mem_unique_id_split s hnd u hu
    subst heq
    have hfilter := split_filter_ne id u before after huid hb ha
    have hfind2 := split_find_id id u before after huid hb
    have hndrem : idsNodup (before ++ after) := by
      have hsubl : (before ++ after).Sublist (before ++ u :: after) :=
        List.Sublist.append (List.Sublist.refl before)
          (List.sublist_cons_self u after)
      exact List.Nodup.sublist (hsubl.map (·.id)) hnd
    have hcA : (before ++ u :: after).countP (·.isActive) = 1 := hI2 (by simp)
    rw [List.countP_append, List.countP_cons] at hcA
    cases hact : u.isActive with
    | true =>
      have hdel : deleteUrl id (before ++ u :: after) =
          match before ++ after with
          | [] => []
          | f :: rest => { f with isActive := true } :: rest := by
        simp only [deleteUrl, hfind2, hfilter, hact, if_true]
      rw [hact] at hcA
      simp only [if_true] at hcA
      have hbef : before.countP (·.isActive) = 0 := by omega
      have haft : after.countP (·.isActive) = 0 := by omega
      cases hba : before ++ after with
      | nil =>
        rw [hdel, hba]
        exact ⟨by simp [idsNodup], fun hne => absurd rfl hne⟩
      | cons f rest =>
        rw [hdel, hba]
        constructor
        · rw [hba] at hndrem
          simpa [idsNodup] using hndrem
        · intro _
          have h0 : (f :: rest).countP (·.isActive) = 0 := by
            rw [← hba, List.countP_append, hbef, haft]
          rw [List.countP_cons] at h0
          have h0t : rest.countP (·.isActive) = 0 := by omega
          show (({ f with isActive := true } :: rest).countP (·.isActive)) = 1
          rw [List.countP_cons, h0t]
          rfl
    | false =>
      have hdel : deleteUrl id (before ++ u :: after) = before ++ after := by
        simp only [deleteUrl, hfind2, hfilter, hact]
        rfl
      rw [hdel]
      rw [hact] at hcA
      simp at hcA
      refine ⟨hndrem, fun _ => ?_⟩
      show (before ++ after).countP (·.isActive) = 1
      rw [List.countP_append]
      omega

/-- One valid operation preserves the store invariant. -/
theorem inv_applyOp (s : List SavedUrl) (o : Op) (hinv : Inv s)
    (hok : (match o with
      | .add id _ _ => !hasId s id
      | .setActive id => hasId s id
      | _ => true) = true) : Inv (applyOp s o) := by
  cases o with
  | add id t d =>
    rw [Bool.not_eq_true'] at hok
    exact inv_addUrl id t d s hinv hok
  | update id d => exact inv_updateUrl id d s hinv
  | del id => exact inv_deleteUrl id s hinv
  | setActive id => exact inv_setActiveUrl id s hinv hok

/-- A valid operation sequence preserves the store invariant. -/
theorem inv_applyOps (ops : List Op) : ∀ s : List SavedUrl, Inv s →
    validOps s ops = true → Inv (applyOps s ops) := by
  induction ops with
  | nil =>
    intro s h _
    exact h
  | cons o os ih =>
    intro s h hv
    simp only [validOps, Bool.and_eq_true] at hv
    exact ih (applyOp s o) (inv_applyOp s o h hv.1) hv.2

/-- C1 fails as stated: from the empty collection, `add "a"` followed by
`setActive "b"` — an id no record carries — leaves a non-empty collection
with no active record, violating I2. -/
theorem singleActive_invariants_counterexample :
    ¬ I2 (applyOps [] [.add "a" 0 ⟨"u", "t"⟩, .setActive "b"]) := by
  simp only [I2, applyOps, List.foldl, applyOp]
  decide

/-- C1 amended: starting from the empty collection, after every finite
sequence of add/update/delete/setActive operations in which each add supplies
a fresh id (the contract of `generateId`) and each setActive targets an id
present in the collection (the only calls the UI issues), the collection
satisfies I1 and I2. -/
theorem singleActive_invariants (ops : List Op)
    (h : validOps [] ops = true) :
    I1 (applyOps [] ops) ∧ I2 (applyOps [] ops) := by
  have hinv : Inv (applyOps [] ops) :=
    inv_applyOps ops [] ⟨by simp [idsNodup], fun hne => absurd rfl hne⟩ h
  refine ⟨?_, hinv.2⟩
  by_cases hne : applyOps [] ops = []
  · rw [I1, hne]
    simp [countActive]
  · rw [I1, hinv.2 hne]

/-- Concrete check of `singleActive_invariants` on a four-operation
sequence exercising add, setActive and delete. -/
theorem singleActive_invariants_check :
    I1 (applyOps [] [.add "a" 0 ⟨"u", "t"⟩, .add "b" 1 ⟨"u2", "t2"⟩,
      .setActive "b", .del "b"]) ∧
    I2 (applyOps [] [.add "a" 0 ⟨"u", "t"⟩, .add "b" 1 ⟨"u2", "t2"⟩,
      .setActive "b", .del "b"]) :=
  singleActive_invariants
    [.add "a" 0 ⟨"u", "t"⟩, .add "b" 1 ⟨"u2", "t2"⟩, .setActive "b", .del "b"]
    (by decide)

end QRApp
